import Mathlib

/-!
Shallow embedding of prow/cmd/splice/main.go (the "splice" batch tool).

The splice tool polls a submit queue, greedily merges queued PRs into a
local integration branch, builds a batch descriptor (kube.Refs) from the
surviving PRs, and submits the presubmit jobs that have not already
succeeded for the identical descriptor.

The git subprocess boundary is modelled as an explicit command interpreter
(`Git`): each git invocation either fails (`none`) or produces a new
repository state. A concrete interpreter `gitModel` over a branch map
implements standard git semantics (merge moves only the checked-out
branch) and is used to reason about which SHAs end up in the descriptor.
-/

namespace Splice

/-- A pull entry of a kube.Refs: PR number plus head commit SHA. -/
structure Pull where
  number : Nat
  sha : String
deriving DecidableEq, Repr

/-- The batch descriptor (kube.Refs): org, repo, base branch, base SHA and
the ordered pulls. -/
structure Refs where
  org : String
  repo : String
  baseRef : String
  baseSHA : String
  pulls : List Pull
deriving DecidableEq, Repr

/-- Modelled from the spec: kube.Refs.String() is not under src/; the spec
states that two descriptors are equal only if their canonical string form
(org/repo/base/baseSHA plus pulls in order) matches exactly. -/
def Refs.string (r : Refs) : String :=
  r.org ++ "," ++ r.repo ++ "," ++ r.baseRef ++ ":" ++ r.baseSHA ++
    String.join (r.pulls.map (fun p => "," ++ toString p.number ++ ":" ++ p.sha))

/-- Modelled from the spec: kube job types, collapsed to the distinction the
spec's JobRecord makes (batch versus everything else). -/
inductive JobType where
  | batch
  | other
deriving DecidableEq, Repr

/-- Modelled from the spec: kube job states; only success matters to splice. -/
inductive JobState where
  | triggered
  | pending
  | success
  | failure
  | aborted
deriving DecidableEq, Repr

/-- The parts of a kube.ProwJobSpec that splice reads. -/
structure ProwJobSpec where
  type : JobType
  job : String
  context : String
  refs : Refs
deriving DecidableEq, Repr

/-- The parts of a kube.ProwJobStatus that splice reads. -/
structure ProwJobStatus where
  state : JobState
deriving DecidableEq, Repr

/-- A kube.ProwJob as splice sees it. The `complete` flag is modelled from
the spec's JobRecord (kube.ProwJob.Complete() is not under src/). -/
structure ProwJob where
  spec : ProwJobSpec
  status : ProwJobStatus
  complete : Bool
deriving DecidableEq, Repr

/-- A config.Presubmit as splice reads it, modelled from the spec's
VerificationJobSpec (config.Presubmit is not under src/). -/
structure Presubmit where
  name : String
  context : String
  alwaysRun : Bool
  skipReport : Bool
deriving DecidableEq, Repr

/-- completedJobs: keep the jobs that are batch-typed, complete, successful
and whose refs render to the same canonical string as the descriptor
(the `continue` chain of the Go loop). -/
def completedJobs : List ProwJob → Refs → List ProwJob
  | [], _ => []
  | job :: rest, refs =>
    if job.spec.type = JobType.batch ∧ job.complete = true ∧
        job.status.state = JobState.success ∧ job.spec.refs.string = refs.string
    then job :: completedJobs rest refs
    else completedJobs rest refs

/-- requiredPresubmits: keep presubmits with alwaysRun set and skipReport
unset (manual and silent jobs never block). -/
def requiredPresubmits : List Presubmit → List Presubmit
  | [] => []
  | job :: rest =>
    if job.alwaysRun = true ∧ job.skipReport = false
    then job :: requiredPresubmits rest
    else requiredPresubmits rest

/-- The filtering loop of neededPresubmits: drop presubmits whose context is
in the skippable set. -/
def dropSkippable (skippable : List String) : List Presubmit → List Presubmit
  | [] => []
  | job :: rest =>
    if job.context ∈ skippable
    then dropSkippable skippable rest
    else job :: dropSkippable skippable rest

/-- neededPresubmits: required presubmits whose context has no completed
successful batch job for this descriptor. -/
def neededPresubmits (presubmits : List Presubmit) (currentJobs : List ProwJob)
    (refs : Refs) : List Presubmit :=
  dropSkippable ((completedJobs currentJobs refs).map (fun j => j.spec.context))
    (requiredPresubmits presubmits)

/-- The branch name splice gives the fetched head of PR n ("pr/%d"). -/
def prBranch (n : Nat) : String := "pr/" ++ toString n

/-- The git commands findMergeable issues, one constructor per invocation
shape (the fetch carries its refspec list: master plus one pull head per
candidate PR). -/
inductive GitCmd where
  | resetHard
  | checkoutOrphan (branch : String)
  | clean
  | fetch (remote : String) (prs : List Nat)
  | checkoutNew (branch base : String)
  | merge (pr : Nat)
  | mergeAbort
deriving DecidableEq, Repr

/-- The git subprocess boundary: running a command either fails (none) or
yields a new repository state; rev-parse either fails or yields output. -/
structure Git (σ : Type) where
  run : σ → GitCmd → Option σ
  revParse : σ → String → Option String

/-- gitCalls: chain git invocations, stopping at the first failure. -/
def gitCalls (g : Git σ) : σ → List GitCmd → Option σ
  | s, [] => some s
  | s, c :: cs =>
    match g.run s c with
    | none => none
    | some s2 => gitCalls g s2 cs

/-- The merge loop of findMergeable: try to merge each PR in order; on
conflict run merge --abort (whose own failure aborts everything) and move
on without the PR. -/
def mergePRs (g : Git σ) : σ → List Nat → Option (σ × List Nat)
  | s, [] => some (s, [])
  | s, pr :: rest =>
    match g.run s (GitCmd.merge pr) with
    | some s2 =>
      match mergePRs g s2 rest with
      | none => none
      | some (s3, out) => some (s3, pr :: out)
    | none =>
      match g.run s GitCmd.mergeAbort with
      | none => none
      | some s2 => mergePRs g s2 rest

/-- findMergeable: reset the workspace, fetch master and all candidate PR
heads, recreate the batch branch from master, then run the merge loop. -/
def findMergeable (g : Git σ) (remote : String) (s : σ) (prs : List Nat) :
    Option (σ × List Nat) :=
  match gitCalls g s
    [GitCmd.resetHard, GitCmd.checkoutOrphan "blank", GitCmd.resetHard,
      GitCmd.clean, GitCmd.fetch remote prs, GitCmd.checkoutNew "batch" "master"] with
  | none => none
  | some s2 => mergePRs g s2 prs

/-- gitRef: rev-parse a ref, returning the empty string when it fails. -/
def gitRef (g : Git σ) (s : σ) (ref : String) : String :=
  match g.revParse s ref with
  | none => ""
  | some out => out

/-- makeBuildRefs: build the kube.Refs for a batch from the current SHA of
master and of each accepted PR branch. -/
def makeBuildRefs (g : Git σ) (s : σ) (org repo : String) (prs : List Nat) : Refs :=
  { org := org
    repo := repo
    baseRef := "master"
    baseSHA := gitRef g s "master"
    pulls := prs.map (fun pr => { number := pr, sha := gitRef g s (prBranch pr) }) }

/-- A submit-queue entry as decoded from the queue JSON. -/
structure QueueEntry where
  number : Nat
  baseRef : String
deriving DecidableEq, Repr

/-- The filtering loop of getQueuedPRs: keep entries whose BaseRef is empty
or "master". -/
def getQueuedPRs : List QueueEntry → List Nat
  | [] => []
  | e :: rest =>
    if e.baseRef = "" ∨ e.baseRef = "master"
    then e.number :: getQueuedPRs rest
    else getQueuedPRs rest

/-- An association list of branch name to commit SHA. -/
def lookupBranch : List (String × String) → String → Option String
  | [], _ => none
  | (k, v) :: rest, name => if k = name then some v else lookupBranch rest name

/-- Point a branch at a SHA, updating an existing entry or appending. -/
def setBranch : List (String × String) → String → String → List (String × String)
  | [], name, sha => [(name, sha)]
  | (k, v) :: rest, name, sha =>
    if k = name then (name, sha) :: rest else (k, v) :: setBranch rest name sha

/-- Concrete repository state: the local branches and the checked-out one. -/
structure RepoState where
  branches : List (String × String)
  cur : String
deriving DecidableEq, Repr

/-- The remote ref splice fetches for PR n ("pull/%d/head"). -/
def pullRef (n : Nat) : String := "pull/" ++ toString n ++ "/head"

/-- The remote repository: a map from remote ref name to the commit SHA it
points at while splice fetches. -/
structure Remote where
  refSHA : String → String

/-- Apply the fetch refspecs "master:master" and "pull/%d/head:pr/%d" for
each candidate to the local branch map. -/
def fetchBranches (r : Remote) (bs : List (String × String)) (prs : List Nat) :
    List (String × String) :=
  prs.foldl (fun acc n => setBranch acc (prBranch n) (r.refSHA (pullRef n)))
    (setBranch bs "master" (r.refSHA "master"))

/-- A concrete git interpreter over RepoState. Standard git semantics:
merge only advances the checked-out branch; an aborted merge leaves every
branch where it was; rev-parse reads the branch map. The merge outcome
(conflict, or the SHA of the new merge commit) is supplied by the oracle
mo from the current tip and the PR number. -/
def gitModel (r : Remote) (mo : String → Nat → Option String) : Git RepoState where
  run := fun s c =>
    match c with
    | GitCmd.resetHard => some s
    | GitCmd.checkoutOrphan b => some { s with cur := b }
    | GitCmd.clean => some s
    | GitCmd.fetch _ prs => some { s with branches := fetchBranches r s.branches prs }
    | GitCmd.checkoutNew b base =>
      match lookupBranch s.branches base with
      | none => none
      | some sha => some { branches := setBranch s.branches b sha, cur := b }
    | GitCmd.merge pr =>
      match lookupBranch s.branches s.cur, lookupBranch s.branches (prBranch pr) with
      | some tip, some _ =>
        match mo tip pr with
        | none => none
        | some msha => some { s with branches := setBranch s.branches s.cur msha }
      | _, _ => none
    | GitCmd.mergeAbort => some s
  revParse := fun s ref => lookupBranch s.branches ref

/-- The observable outcome of one iteration of the main loop. -/
inductive TickResult where
  | listError
  | waiting (running : List String)
  | coolingDown
  | queueError
  | emptyQueue
  | mergeError
  | tooSmall (batch : List Nat)
  | submitted (batch : List Nat) (refs : Refs) (jobs : List Presubmit)
deriving DecidableEq, Repr

/-- The names of incomplete batch jobs (the `running` slice of main). -/
def runningBatchJobs : List ProwJob → List String
  | [] => []
  | job :: rest =>
    if job.spec.type = JobType.batch ∧ job.complete = false
    then job.spec.job :: runningBatchJobs rest
    else runningBatchJobs rest

/-- One iteration of the main loop, as a pure function of its inputs: the
job-list result, the queue-fetch result, the cooldown counter and the git
world. Returns the outcome plus the new cooldown. -/
def tick (g : Git σ) (s : σ) (remote org repo : String) (maxBatchSize : Nat)
    (presubmits : List Presubmit) (listResult : Option (List ProwJob))
    (queueResult : Option (List Nat)) (cooldown : Nat) : TickResult × Nat :=
  match listResult with
  | none => (TickResult.listError, cooldown)
  | some currentJobs =>
    if 0 < (runningBatchJobs currentJobs).length then
      (TickResult.waiting (runningBatchJobs currentJobs), cooldown)
    else if 0 < cooldown then (TickResult.coolingDown, cooldown - 1)
    else
      match queueResult with
      | none => (TickResult.queueError, cooldown)
      | some queue =>
        if queue.length = 0 then (TickResult.emptyQueue, cooldown)
        else
          match findMergeable g remote s queue with
          | none => (TickResult.mergeError, cooldown)
          | some (s2, batchPRs) =>
            if batchPRs.length ≤ 1 then (TickResult.tooSmall batchPRs, cooldown)
            else
              let trimmed :=
                if maxBatchSize < batchPRs.length then batchPRs.take maxBatchSize
                else batchPRs
              let refs := makeBuildRefs g s2 org repo trimmed
              (TickResult.submitted trimmed refs
                (neededPresubmits presubmits currentJobs refs), 5)

theorem mem_completedJobs (jobs : List ProwJob) (refs : Refs) (j : ProwJob) :
    j ∈ completedJobs jobs refs ↔
      j ∈ jobs ∧ j.spec.type = JobType.batch ∧ j.complete = true ∧
        j.status.state = JobState.success ∧ j.spec.refs.string = refs.string := by
  induction jobs with
  | nil => simp [completedJobs]
  | cons job rest ih =>
    simp only [completedJobs]
    split
    · rename_i h
      simp only [List.mem_cons, ih]
      constructor
      · rintro (rfl | ⟨hm, hp⟩)
        · exact ⟨Or.inl rfl, h⟩
        · exact ⟨Or.inr hm, hp⟩
      · rintro ⟨rfl | hm, hp⟩
        · exact Or.inl rfl
        · exact Or.inr ⟨hm, hp⟩
    · rename_i h
      simp only [List.mem_cons, ih]
      constructor
      · rintro ⟨hm, hp⟩
        exact ⟨Or.inr hm, hp⟩
      · rintro ⟨rfl | hm, hp⟩
        · exact absurd hp h
        · exact ⟨hm, hp⟩

theorem mem_requiredPresubmits (ps : List Presubmit) (p : Presubmit) :
    p ∈ requiredPresubmits ps ↔
      p ∈ ps ∧ p.alwaysRun = true ∧ p.skipReport = false := by
  induction ps with
  | nil => simp [requiredPresubmits]
  | cons job rest ih =>
    simp only [requiredPresubmits]
    split
    · rename_i h
      simp only [List.mem_cons, ih]
      constructor
      · rintro (rfl | ⟨hm, hp⟩)
        · exact ⟨Or.inl rfl, h⟩
        · exact ⟨Or.inr hm, hp⟩
      · rintro ⟨rfl | hm, hp⟩
        · exact Or.inl rfl
        · exact Or.inr ⟨hm, hp⟩
    · rename_i h
      simp only [List.mem_cons, ih]
      constructor
      · rintro ⟨hm, hp⟩
        exact ⟨Or.inr hm, hp⟩
      · rintro ⟨rfl | hm, hp⟩
        · exact absurd hp h
        · exact ⟨hm, hp⟩

theorem mem_dropSkippable (sk : List String) (l : List Presubmit) (p : Presubmit) :
    p ∈ dropSkippable sk l ↔ p ∈ l ∧ p.context ∉ sk := by
  induction l with
  | nil => simp [dropSkippable]
  | cons job rest ih =>
    simp only [dropSkippable]
    split
    · rename_i h
      simp only [List.mem_cons, ih]
      constructor
      · rintro ⟨hm, hp⟩
        exact ⟨Or.inr hm, hp⟩
      · rintro ⟨rfl | hm, hp⟩
        · exact absurd h hp
        · exact ⟨hm, hp⟩
    · rename_i h
      simp only [List.mem_cons, ih]
      constructor
      · rintro (rfl | ⟨hm, hp⟩)
        · exact ⟨Or.inl rfl, h⟩
        · exact ⟨Or.inr hm, hp⟩
      · rintro ⟨rfl | hm, hp⟩
        · exact Or.inl rfl
        · exact Or.inr ⟨hm, hp⟩

theorem requiredPresubmits_sublist (ps : List Presubmit) :
    (requiredPresubmits ps).Sublist ps := by
  induction ps with
  | nil => simp [requiredPresubmits]
  | cons job rest ih =>
    simp only [requiredPresubmits]
    split
    · exact ih.cons₂ job
    · exact ih.cons job

theorem dropSkippable_sublist (sk : List String) (l : List Presubmit) :
    (dropSkippable sk l).Sublist l := by
  induction l with
  | nil => simp [dropSkippable]
  | cons job rest ih =>
    simp only [dropSkippable]
    split
    · exact ih.cons job
    · exact ih.cons₂ job

theorem dropSkippable_nil (l : List Presubmit) : dropSkippable [] l = l := by
  induction l with
  | nil => rfl
  | cons job rest ih => simp [dropSkippable, ih]

theorem completedJobs_eq_nil_of_string_ne (jobs : List ProwJob) (refs : Refs)
    (h : ∀ j ∈ jobs, j.spec.refs.string ≠ refs.string) :
    completedJobs jobs refs = [] := by
  induction jobs with
  | nil => rfl
  | cons job rest ih =>
    simp only [completedJobs]
    have hj := h job (List.mem_cons_self job rest)
    rw [if_neg (fun hc => hj hc.2.2.2)]
    exact ih (fun j hm => h j (List.mem_cons_of_mem job hm))

/-- C3: a job is in the output of completedJobs iff it is one of the input
jobs, its type is batch, it is complete, its state is success, and its
refs render to exactly the descriptor's canonical string. -/
theorem completedJobs_characterization (jobs : List ProwJob) (refs : Refs)
    (j : ProwJob) :
    j ∈ completedJobs jobs refs ↔
      j ∈ jobs ∧ j.spec.type = JobType.batch ∧ j.complete = true ∧
        j.status.state = JobState.success ∧ j.spec.refs.string = refs.string :=
  mem_completedJobs jobs refs j

/-- C2: neededPresubmits returns exactly the presubmits that are alwaysRun,
not skipReport, and whose context is not the context of any completed
successful batch job for this descriptor; a job recorded against a
descriptor with a different canonical string is never counted as
completed, and if every current job's recorded descriptor string differs
from the target's, neededPresubmits collapses to requiredPresubmits. -/
theorem neededPresubmits_characterization (ps : List Presubmit)
    (jobs : List ProwJob) (refs : Refs) :
    (∀ p, p ∈ neededPresubmits ps jobs refs ↔
        p ∈ ps ∧ p.alwaysRun = true ∧ p.skipReport = false ∧
          ∀ j ∈ completedJobs jobs refs, j.spec.context ≠ p.context) ∧
      (∀ j ∈ jobs, j.spec.refs.string ≠ refs.string →
        j ∉ completedJobs jobs refs) ∧
      ((∀ j ∈ jobs, j.spec.refs.string ≠ refs.string) →
        neededPresubmits ps jobs refs = requiredPresubmits ps) := by
  refine ⟨fun p => ?_, fun j hm hs hc => ?_, fun h => ?_⟩
  · rw [neededPresubmits, mem_dropSkippable, mem_requiredPresubmits]
    constructor
    · rintro ⟨⟨hm, ha, hsk⟩, hctx⟩
      refine ⟨hm, ha, hsk, fun j hj he => hctx ?_⟩
      exact List.mem_map.mpr ⟨j, hj, he⟩
    · rintro ⟨hm, ha, hsk, hctx⟩
      refine ⟨⟨hm, ha, hsk⟩, fun hin => ?_⟩
      obtain ⟨j, hj, he⟩ := List.mem_map.mp hin
      exact hctx j hj he
  · exact hs ((mem_completedJobs jobs refs j).mp hc).2.2.2.2
  · rw [neededPresubmits, completedJobs_eq_nil_of_string_ne jobs refs h]
    simp [dropSkippable_nil]

/-- C10: the list returned by neededPresubmits is a sublist of the
configured presubmit list, so every returned spec occurs in the input and
in the same relative order. -/
theorem neededPresubmits_sublist (ps : List Presubmit) (jobs : List ProwJob)
    (refs : Refs) : (neededPresubmits ps jobs refs).Sublist ps :=
  (dropSkippable_sublist _ _).trans (requiredPresubmits_sublist ps)

/-- C8: getQueuedPRs keeps exactly the queue entries whose BaseRef is the
empty string or "master", in order, projecting each to its PR number. -/
theorem getQueuedPRs_characterization (queue : List QueueEntry) :
    getQueuedPRs queue =
      (queue.filter (fun e => e.baseRef = "" ∨ e.baseRef = "master")).map
        (fun e => e.number) ∧
      ∀ n, n ∈ getQueuedPRs queue ↔
        ∃ e ∈ queue, e.number = n ∧ (e.baseRef = "" ∨ e.baseRef = "master") := by
  have heq : getQueuedPRs queue =
      (queue.filter (fun e => e.baseRef = "" ∨ e.baseRef = "master")).map
        (fun e => e.number) := by
    induction queue with
    | nil => rfl
    | cons e rest ih =>
      simp only [getQueuedPRs, List.filter]
      split
      · rename_i h
        rw [decide_eq_true h, List.map_cons, ih]
      · rename_i h
        rw [decide_eq_false h, ih]
  refine ⟨heq, fun n => ?_⟩
  rw [heq]
  simp only [List.mem_map, List.mem_filter, decide_eq_true_eq]
  constructor
  · rintro ⟨e, ⟨hm, hb⟩, rfl⟩
    exact ⟨e, hm, rfl, hb⟩
  · rintro ⟨e, hm, rfl, hb⟩
    exact ⟨e, ⟨hm, hb⟩, rfl⟩

theorem mergePRs_sublist (g : Git σ) (prs : List Nat) :
    ∀ (s s2 : σ) (out : List Nat),
      mergePRs g s prs = some (s2, out) → out.Sublist prs := by
  induction prs with
  | nil =>
    intro s s2 out h
    simp only [mergePRs, Option.some.injEq, Prod.mk.injEq] at h
    obtain ⟨h1, h2⟩ := h
    subst h2
    exact List.Sublist.refl []
  | cons pr rest ih =>
    intro s s2 out h
    simp only [mergePRs] at h
    cases hr : g.run s (GitCmd.merge pr) with
    | some s3 =>
      simp only [hr] at h
      cases hm : mergePRs g s3 rest with
      | none => simp only [hm] at h; exact Option.noConfusion h
      | some p =>
        obtain ⟨s4, out2⟩ := p
        simp only [hm, Option.some.injEq, Prod.mk.injEq] at h
        obtain ⟨h1, h2⟩ := h
        subst h2
        exact (ih s3 s4 out2 hm).cons₂ pr
    | none =>
      simp only [hr] at h
      cases ha : g.run s GitCmd.mergeAbort with
      | none => simp only [ha] at h; exact Option.noConfusion h
      | some s3 =>
        simp only [ha] at h
        exact (ih s3 s2 out h).cons pr

/-- C1: whenever findMergeable returns a result, the returned PR list is a
sublist of the candidate list (a subset in the same relative order) and
its size is between 0 and the candidate count. -/
theorem findMergeable_output_sublist (g : Git σ) (remote : String) (s : σ)
    (prs : List Nat) (s2 : σ) (out : List Nat)
    (h : findMergeable g remote s prs = some (s2, out)) :
    out.Sublist prs ∧ out.length ≤ prs.length := by
  rw [findMergeable] at h
  rcases hc : gitCalls g s [GitCmd.resetHard, GitCmd.checkoutOrphan "blank",
      GitCmd.resetHard, GitCmd.clean, GitCmd.fetch remote prs,
      GitCmd.checkoutNew "batch" "master"] with _ | s1
  · simp only [hc] at h
    exact Option.noConfusion h
  · simp only [hc] at h
    have hs := mergePRs_sublist g prs s1 s2 out h
    exact ⟨hs, hs.length_le⟩

/-- A git world where every command succeeds without changing anything. -/
def allOKGit : Git Unit where
  run := fun _ _ => some ()
  revParse := fun _ _ => some "deadbeef"

/-- Witness for C1: with every git call succeeding, findMergeable on the
queue [3, 5] returns exactly [3, 5], which satisfies the property. -/
theorem findMergeable_output_sublist_witness :
    ([3, 5] : List Nat).Sublist [3, 5] ∧
      ([3, 5] : List Nat).length ≤ ([3, 5] : List Nat).length :=
  findMergeable_output_sublist allOKGit "origin" () [3, 5] () [3, 5] rfl

/-- C4: when the merge of one candidate conflicts and the abort call
restores the workspace, the merge loop's result on that candidate plus the
remaining candidates equals its result on the remaining candidates alone:
exactly the conflicting candidate is excluded and processing continues. -/
theorem mergeConflict_excludes_one (g : Git σ) (s s2 : σ) (pr : Nat)
    (rest : List Nat) (hconflict : g.run s (GitCmd.merge pr) = none)
    (habort : g.run s GitCmd.mergeAbort = some s2) :
    mergePRs g s (pr :: rest) = mergePRs g s2 rest := by
  simp [mergePRs, hconflict, habort]

/-- A git world where merging PR 1 conflicts and everything else works. -/
def oneConflictGit : Git Unit where
  run := fun _ c =>
    match c with
    | GitCmd.merge 1 => none
    | _ => some ()
  revParse := fun _ _ => some "deadbeef"

/-- Witness for C4: with PR 1 conflicting, the merge loop over [1, 2]
computes the same result as over [2] alone. -/
theorem mergeConflict_excludes_one_witness :
    mergePRs oneConflictGit () (1 :: [2]) = mergePRs oneConflictGit () [2] :=
  mergeConflict_excludes_one oneConflictGit () () 1 [2] rfl rfl

/-- A git world where every command succeeds but no ref resolves. -/
def noRefsGit : Git Unit where
  run := fun _ _ => some ()
  revParse := fun _ _ => none

/-- Counterexample to C5: with every ref resolution failing, makeBuildRefs
still produces a full descriptor (recording the empty string for every
SHA) instead of aborting the cycle with a failure. -/
theorem makeBuildRefs_produces_despite_failure :
    makeBuildRefs noRefsGit () "kubernetes" "kubernetes" [101, 102] =
      { org := "kubernetes", repo := "kubernetes", baseRef := "master",
        baseSHA := "",
        pulls := [{ number := 101, sha := "" }, { number := 102, sha := "" }] } :=
  rfl

theorem gitRef_eq_getD (g : Git σ) (s : σ) (ref : String) :
    gitRef g s ref = (g.revParse s ref).getD "" := by
  cases h : g.revParse s ref <;> simp [gitRef, h]

/-- C5 amended: makeBuildRefs always produces a descriptor; a ref whose
resolution fails is recorded as the empty string (gitRef maps a rev-parse
failure to ""), and the cycle is not aborted. -/
theorem makeBuildRefs_records_empty_on_failure (g : Git σ) (s : σ)
    (org repo : String) (prs : List Nat) :
    (makeBuildRefs g s org repo prs).baseSHA = (g.revParse s "master").getD "" ∧
      (makeBuildRefs g s org repo prs).pulls =
        prs.map (fun pr =>
          { number := pr, sha := (g.revParse s (prBranch pr)).getD "" }) := by
  constructor
  · rw [makeBuildRefs, gitRef_eq_getD]
  · rw [makeBuildRefs]
    exact List.map_congr_left (fun pr _ => by rw [gitRef_eq_getD])

theorem lookup_setBranch_self (bs : List (String × String)) (k v : String) :
    lookupBranch (setBranch bs k v) k = some v := by
  induction bs with
  | nil => simp [setBranch, lookupBranch]
  | cons p rest ih =>
    obtain ⟨k2, v2⟩ := p
    by_cases h : k2 = k
    · simp [setBranch, h, lookupBranch]
    · simp [setBranch, h, lookupBranch, ih]

theorem lookup_setBranch_ne (bs : List (String × String)) (k v q : String)
    (h : q ≠ k) : lookupBranch (setBranch bs k v) q = lookupBranch bs q := by
  induction bs with
  | nil => simp [setBranch, lookupBranch, Ne.symm h]
  | cons p rest ih =>
    obtain ⟨k2, v2⟩ := p
    by_cases h2 : k2 = k
    · subst h2
      simp [setBranch, lookupBranch, Ne.symm h]
    · simp only [setBranch, if_neg h2, lookupBranch]
      by_cases h3 : k2 = q
      · simp [h3]
      · simp [h3, ih]

theorem prBranch_ne_batch (n : Nat) : prBranch n ≠ "batch" := by
  intro h
  have h2 := congrArg String.data h
  simp [prBranch, String.data_append] at h2

theorem prBranch_ne_master (n : Nat) : prBranch n ≠ "master" := by
  intro h
  have h2 := congrArg String.data h
  simp [prBranch, String.data_append] at h2

theorem prBranch_eq_pullRef_eq {a b : Nat} (h : prBranch a = prBranch b) :
    pullRef a = pullRef b := by
  have h2 := congrArg String.data h
  simp only [prBranch, String.data_append] at h2
  have h3 : toString a = toString b := String.ext (by simpa using h2)
  simp [pullRef, h3]

theorem lookup_fetchFold_keep (r : Remote) (m : Nat) (prs : List Nat) :
    ∀ acc, lookupBranch acc (prBranch m) = some (r.refSHA (pullRef m)) →
      lookupBranch
        (prs.foldl (fun acc n => setBranch acc (prBranch n) (r.refSHA (pullRef n))) acc)
        (prBranch m) = some (r.refSHA (pullRef m)) := by
  induction prs with
  | nil => intro acc h; exact h
  | cons n rest ih =>
    intro acc h
    simp only [List.foldl_cons]
    apply ih
    by_cases he : prBranch n = prBranch m
    · rw [← he, lookup_setBranch_self, prBranch_eq_pullRef_eq he]
    · rw [lookup_setBranch_ne _ _ _ _ (fun hh => he hh.symm)]
      exact h

theorem lookup_fetchFold_mem (r : Remote) (m : Nat) (prs : List Nat) :
    ∀ acc, m ∈ prs →
      lookupBranch
        (prs.foldl (fun acc n => setBranch acc (prBranch n) (r.refSHA (pullRef n))) acc)
        (prBranch m) = some (r.refSHA (pullRef m)) := by
  induction prs with
  | nil => intro acc h; cases h
  | cons n rest ih =>
    intro acc hm
    simp only [List.foldl_cons]
    rcases List.mem_cons.mp hm with rfl | hm2
    · exact lookup_fetchFold_keep r m rest _ (lookup_setBranch_self acc _ _)
    · exact ih _ hm2

theorem lookup_fetchFold_other (r : Remote) (q : String)
    (hq : ∀ n : Nat, q ≠ prBranch n) (prs : List Nat) :
    ∀ acc, lookupBranch
        (prs.foldl (fun acc n => setBranch acc (prBranch n) (r.refSHA (pullRef n))) acc)
        q = lookupBranch acc q := by
  induction prs with
  | nil => intro acc; rfl
  | cons n rest ih =>
    intro acc
    simp only [List.foldl_cons]
    rw [ih, lookup_setBranch_ne _ _ _ _ (hq n)]

theorem lookup_fetchBranches_pr (r : Remote) (bs : List (String × String))
    (prs : List Nat) (m : Nat) (hm : m ∈ prs) :
    lookupBranch (fetchBranches r bs prs) (prBranch m) =
      some (r.refSHA (pullRef m)) :=
  lookup_fetchFold_mem r m prs _ hm

theorem lookup_fetchBranches_master (r : Remote) (bs : List (String × String))
    (prs : List Nat) :
    lookupBranch (fetchBranches r bs prs) "master" = some (r.refSHA "master") := by
  rw [fetchBranches,
    lookup_fetchFold_other r "master" (fun n => Ne.symm (prBranch_ne_master n)) prs,
    lookup_setBranch_self]

theorem gitModel_merge_state (r : Remote) (mo : String → Nat → Option String)
    (s s2 : RepoState) (pr : Nat)
    (h : (gitModel r mo).run s (GitCmd.merge pr) = some s2) :
    s2.cur = s.cur ∧ ∀ name, name ≠ s.cur →
      lookupBranch s2.branches name = lookupBranch s.branches name := by
  simp only [gitModel] at h
  cases h1 : lookupBranch s.branches s.cur with
  | none => simp only [h1] at h; exact Option.noConfusion h
  | some tip =>
    simp only [h1] at h
    cases h2 : lookupBranch s.branches (prBranch pr) with
    | none => simp only [h2] at h; exact Option.noConfusion h
    | some psha =>
      simp only [h2] at h
      cases h3 : mo tip pr with
      | none => simp only [h3] at h; exact Option.noConfusion h
      | some msha =>
        simp only [h3, Option.some.injEq] at h
        subst h
        exact ⟨rfl, fun name hn => lookup_setBranch_ne _ _ _ _ hn⟩

theorem mergePRs_gitModel_preserves (r : Remote) (mo : String → Nat → Option String)
    (prs : List Nat) :
    ∀ (s s2 : RepoState) (out : List Nat),
      mergePRs (gitModel r mo) s prs = some (s2, out) →
      s2.cur = s.cur ∧ ∀ name, name ≠ s.cur →
        lookupBranch s2.branches name = lookupBranch s.branches name := by
  induction prs with
  | nil =>
    intro s s2 out h
    simp only [mergePRs, Option.some.injEq, Prod.mk.injEq] at h
    obtain ⟨h1, h2⟩ := h
    subst h1
    exact ⟨rfl, fun name hn => rfl⟩
  | cons pr rest ih =>
    intro s s2 out h
    simp only [mergePRs] at h
    cases hr : (gitModel r mo).run s (GitCmd.merge pr) with
    | some s3 =>
      simp only [hr] at h
      cases hm : mergePRs (gitModel r mo) s3 rest with
      | none => simp only [hm] at h; exact Option.noConfusion h
      | some p =>
        obtain ⟨s4, out2⟩ := p
        simp only [hm, Option.some.injEq, Prod.mk.injEq] at h
        obtain ⟨h1, h2⟩ := h
        subst h1
        have hstep := gitModel_merge_state r mo s s3 pr hr
        have hrest := ih s3 s4 out2 hm
        refine ⟨hrest.1.trans hstep.1, fun name hn => ?_⟩
        have hn3 : name ≠ s3.cur := by rw [hstep.1]; exact hn
        rw [hrest.2 name hn3, hstep.2 name hn]
    | none =>
      simp only [hr] at h
      cases ha : (gitModel r mo).run s GitCmd.mergeAbort with
      | none => simp only [ha] at h; exact Option.noConfusion h
      | some s3 =>
        simp only [ha] at h
        have hs3 : s = s3 := by
          simpa only [gitModel, Option.some.injEq] using ha
        subst hs3
        exact ih s s2 out h

theorem gitCalls_setup (r : Remote) (mo : String → Nat → Option String)
    (s0 : RepoState) (remote : String) (prs : List Nat) :
    gitCalls (gitModel r mo) s0
      [GitCmd.resetHard, GitCmd.checkoutOrphan "blank", GitCmd.resetHard,
        GitCmd.clean, GitCmd.fetch remote prs, GitCmd.checkoutNew "batch" "master"] =
      some { branches := setBranch (fetchBranches r s0.branches prs) "batch"
               (r.refSHA "master"),
             cur := "batch" } := by
  simp only [gitCalls, gitModel]
  rw [lookup_fetchBranches_master]

/-- C6: over the concrete git interpreter, the SHA makeBuildRefs records
for every accepted PR is the head commit the fetch stored in that PR's
branch (the remote's pull head), never a merge commit produced on the
batch branch: the merge oracle mo does not occur in the right-hand side. -/
theorem makeBuildRefs_uses_fetched_heads (r : Remote)
    (mo : String → Nat → Option String) (s0 : RepoState)
    (remote org repo : String) (prs : List Nat) (s2 : RepoState)
    (out : List Nat)
    (h : findMergeable (gitModel r mo) remote s0 prs = some (s2, out)) :
    (makeBuildRefs (gitModel r mo) s2 org repo out).pulls =
      out.map (fun pr => { number := pr, sha := r.refSHA (pullRef pr) }) := by
  rw [findMergeable, gitCalls_setup r mo s0 remote prs] at h
  have hm : mergePRs (gitModel r mo)
      { branches := setBranch (fetchBranches r s0.branches prs) "batch"
          (r.refSHA "master"),
        cur := "batch" } prs = some (s2, out) := h
  have hpres := mergePRs_gitModel_preserves r mo prs _ s2 out hm
  have hsub := mergePRs_sublist (gitModel r mo) prs _ s2 out hm
  simp only [makeBuildRefs]
  apply List.map_congr_left
  intro pr hpr
  have hmem : pr ∈ prs := hsub.subset hpr
  have hbase : lookupBranch
      (setBranch (fetchBranches r s0.branches prs) "batch" (r.refSHA "master"))
      (prBranch pr) = some (r.refSHA (pullRef pr)) := by
    rw [lookup_setBranch_ne _ _ _ _ (prBranch_ne_batch pr)]
    exact lookup_fetchBranches_pr r s0.branches prs pr hmem
  have hlook : lookupBranch s2.branches (prBranch pr) =
      some (r.refSHA (pullRef pr)) := by
    rw [hpres.2 (prBranch pr) (prBranch_ne_batch pr)]
    exact hbase
  have hsha : gitRef (gitModel r mo) s2 (prBranch pr) = r.refSHA (pullRef pr) := by
    simp only [gitRef, gitModel]
    rw [hlook]
  rw [hsha]

/-- A remote whose every ref points at a SHA naming that ref. -/
def demoRemote : Remote := ⟨fun ref => "sha:" ++ ref⟩

/-- A merge oracle that always succeeds with a fixed merge commit. -/
def demoMerge : String → Nat → Option String := fun _ _ => some "mergecommit"

/-- Witness for C6: a full run on queue [1]; the final repository's batch
branch points at the merge commit, yet the descriptor for [1] records the
fetched pull head. -/
theorem makeBuildRefs_uses_fetched_heads_witness :
    (makeBuildRefs (gitModel demoRemote demoMerge)
        { branches := [("master", "sha:master"), ("pr/1", "sha:pull/1/head"),
            ("batch", "mergecommit")],
          cur := "batch" } "kubernetes" "kubernetes" [1]).pulls =
      [1].map (fun pr => { number := pr, sha := demoRemote.refSHA (pullRef pr) }) :=
  makeBuildRefs_uses_fetched_heads demoRemote demoMerge
    { branches := [], cur := "master" } "origin" "kubernetes" "kubernetes" [1]
    { branches := [("master", "sha:master"), ("pr/1", "sha:pull/1/head"),
        ("batch", "mergecommit")],
      cur := "batch" } [1] rfl

theorem runningBatchJobs_length_pos (jobs : List ProwJob)
    (h : ∃ j ∈ jobs, j.spec.type = JobType.batch ∧ j.complete = false) :
    0 < (runningBatchJobs jobs).length := by
  induction jobs with
  | nil =>
    obtain ⟨j, hj, _⟩ := h
    cases hj
  | cons job rest ih =>
    obtain ⟨j, hj, hp⟩ := h
    simp only [runningBatchJobs]
    rcases List.mem_cons.mp hj with rfl | hj2
    · rw [if_pos hp]
      simp
    · split
      · simp
      · exact ih ⟨j, hj2, hp⟩

/-- C7: if any listed job is batch-typed and incomplete, the tick's outcome
is `waiting` with the unchanged cooldown, for every queue-fetch result and
every git world: no queue fetch is consulted, no batch is composed and no
job is submitted in that tick. -/
theorem tick_idle_when_batch_running (g : Git σ) (s : σ)
    (remote org repo : String) (maxBatchSize : Nat) (presubmits : List Presubmit)
    (currentJobs : List ProwJob) (queueResult : Option (List Nat)) (cooldown : Nat)
    (h : ∃ j ∈ currentJobs, j.spec.type = JobType.batch ∧ j.complete = false) :
    tick g s remote org repo maxBatchSize presubmits (some currentJobs)
        queueResult cooldown =
      (TickResult.waiting (runningBatchJobs currentJobs), cooldown) := by
  have hlen := runningBatchJobs_length_pos currentJobs h
  simp only [tick]
  rw [if_pos hlen]

/-- A sample descriptor for witnesses. -/
def demoRefs : Refs :=
  { org := "kubernetes", repo := "kubernetes", baseRef := "master",
    baseSHA := "abc", pulls := [] }

/-- A batch job that is still incomplete. -/
def demoRunningJob : ProwJob :=
  { spec := { type := JobType.batch, job := "pull-batch-e2e",
              context := "e2e", refs := demoRefs },
    status := { state := JobState.pending },
    complete := false }

/-- Witness for C7: with one incomplete batch job listed, a tick with a
nonempty queue available still just waits. -/
theorem tick_idle_when_batch_running_witness :
    tick allOKGit () "origin" "kubernetes" "kubernetes" 5 []
        (some [demoRunningJob]) (some [42]) 0 =
      (TickResult.waiting (runningBatchJobs [demoRunningJob]), 0) :=
  tick_idle_when_batch_running allOKGit () "origin" "kubernetes" "kubernetes" 5
    [] [demoRunningJob] (some [42]) 0
    (by decide)

/-- C9: in a tick that reaches the feasibility engine (no batch job is
running, no cooldown, the queue fetch returned a nonempty queue) and where
the engine accepts at most one PR, the outcome is `tooSmall`: no
verification job is submitted and the cooldown is untouched. -/
theorem tick_no_submit_small_batch (g : Git σ) (s : σ)
    (remote org repo : String) (maxBatchSize : Nat) (presubmits : List Presubmit)
    (currentJobs : List ProwJob) (queue : List Nat) (cooldown : Nat)
    (s2 : σ) (batchPRs : List Nat)
    (hrun : runningBatchJobs currentJobs = [])
    (hcool : cooldown = 0)
    (hq : queue.length ≠ 0)
    (hfind : findMergeable g remote s queue = some (s2, batchPRs))
    (hsmall : batchPRs.length ≤ 1) :
    tick g s remote org repo maxBatchSize presubmits (some currentJobs)
        (some queue) cooldown =
      (TickResult.tooSmall batchPRs, cooldown) := by
  subst hcool
  simp [tick, hrun, hfind, hq, hsmall]

/-- Witness for C9: PR 1 conflicts, so the engine accepts nothing from the
queue [1]; the tick ends in tooSmall with no submission. -/
theorem tick_no_submit_small_batch_witness :
    tick oneConflictGit () "origin" "kubernetes" "kubernetes" 5 [] (some [])
        (some [1]) 0 =
      (TickResult.tooSmall [], 0) :=
  tick_no_submit_small_batch oneConflictGit () "origin" "kubernetes"
    "kubernetes" 5 [] [] [1] 0 () [] rfl rfl (by decide) rfl (by decide)

end Splice
